import Mathlib

/-!
Shallow embedding of the configuration codec and safe-persistence layer of
simple-coredns-manager (internal/coredns: zone.go, hosts.go, gslb.go, diff.go
and the Corefile manager). Text is modelled as List Char: Go strings are byte
strings and all processing relevant here is ASCII-transparent. time.Now is
modelled by passing today's YYYYMMDD string as an explicit parameter.
Filesystem effects are modelled at the content level: every Write-style
operation is represented by the function from the content read to the content
written, and a fallible operation returns Option (none corresponds to the Go
function returning an error before any write happens).
-/

/-- ASCII letter or digit: the anchor class of the domain regexp
in zone.go / hosts.go. -/
def isAlnumA (c : Char) : Bool :=
  ('a' ≤ c && c ≤ 'z') || ('A' ≤ c && c ≤ 'Z') || ('0' ≤ c && c ≤ '9')

/-- Interior class of the domain regexp: alphanumeric, dot or hyphen. -/
def isDomMid (c : Char) : Bool :=
  isAlnumA c || c = '.' || c = '-'

/-- Tail of the anchored domain regexp after the first character: a run of
interior characters ending in an alphanumeric character (so the whole
string has length at least two). -/
def domTail : List Char → Bool
  | [] => false
  | [c] => isAlnumA c
  | c :: rest => isDomMid c && domTail rest

/-- Go regexp MatchString for the anchored pattern used by ValidateDomain
(first character alphanumeric, interior alphanumeric or dot or hyphen,
last character alphanumeric; length at least two). -/
def validDomainRe : List Char → Bool
  | [] => false
  | c :: rest => isAlnumA c && domTail rest

/-- Go strings.Contains: does s contain p as a contiguous substring. -/
def containsSub : List Char → List Char → Bool
  | [], p => decide (p = [])
  | s@(_ :: rest), p => p.isPrefixOf s || containsSub rest p

/-- Go strings.ContainsAny: does s contain any character of chars. -/
def containsAnyOf (s chars : List Char) : Bool :=
  s.any (fun c => chars.contains c)

/-- ValidateDomain from zone.go (identical copy in hosts.go); true means the
Go function returns a nil error. Checks, in order: non-empty, no slash or
backslash, no double dot, and the anchored regexp. -/
def ValidateDomain (d : List Char) : Bool :=
  if d = [] then false
  else if containsAnyOf d ['/', '\\'] then false
  else if containsSub d ['.', '.'] then false
  else validDomainRe d

-- Helper lemmas for C1 ------------------------------------------------------

theorem domTail_iff (t : List Char) :
    domTail t = true ↔ ∃ mid c, t = mid ++ [c] ∧ isAlnumA c = true ∧
      (∀ x ∈ mid, isDomMid x = true) := by
  induction t with
  | nil =>
    simp [domTail]
  | cons a rest ih =>
    cases rest with
    | nil =>
      constructor
      · intro h
        exact ⟨[], a, rfl, h, by simp⟩
      · rintro ⟨mid, c, heq, hc, hmid⟩
        cases mid with
        | nil => simp at heq; simpa [domTail, heq] using hc
        | cons m ms => simp at heq
    | cons b bs =>
      rw [show domTail (a :: b :: bs) = (isDomMid a && domTail (b :: bs)) from rfl]
      constructor
      · intro h
        rw [Bool.and_eq_true] at h
        rcases (ih.mp h.2) with ⟨mid, c, heq, hc, hmid⟩
        refine ⟨a :: mid, c, by simp [heq], hc, ?_⟩
        intro x hx
        rcases List.mem_cons.mp hx with hx | hx
        · rw [hx]; exact h.1
        · exact hmid x hx
      · rintro ⟨mid, c, heq, hc, hmid⟩
        cases mid with
        | nil => simp at heq
        | cons m ms =>
          simp at heq
          rcases heq with ⟨ham, heq2⟩
          rw [Bool.and_eq_true]
          constructor
          · rw [ham]; exact hmid m (by simp)
          · exact ih.mpr ⟨ms, c, heq2, hc, fun x hx => hmid x (by simp [hx])⟩

theorem validDomainRe_iff (d : List Char) :
    validDomainRe d = true ↔ ∃ c₁ mid c₂, d = c₁ :: (mid ++ [c₂]) ∧
      isAlnumA c₁ = true ∧ isAlnumA c₂ = true ∧ (∀ x ∈ mid, isDomMid x = true) := by
  cases d with
  | nil => simp [validDomainRe]
  | cons a rest =>
    rw [show validDomainRe (a :: rest) = (isAlnumA a && domTail rest) from rfl]
    rw [Bool.and_eq_true, domTail_iff]
    constructor
    · rintro ⟨ha, mid, c, heq, hc, hmid⟩
      exact ⟨a, mid, c, by simp [heq], ha, hc, hmid⟩
    · rintro ⟨c₁, mid, c₂, heq, h1, h2, hmid⟩
      simp at heq
      rcases heq with ⟨hac, hrest⟩
      exact ⟨hac ▸ h1, mid, c₂, hrest, h2, hmid⟩

theorem containsAnyOf_two_iff (s : List Char) (a b : Char) :
    containsAnyOf s [a, b] = true ↔ a ∈ s ∨ b ∈ s := by
  simp only [containsAnyOf, List.any_eq_true]
  constructor
  · rintro ⟨x, hx, hmem⟩
    have : x = a ∨ x = b := by
      have h := List.mem_of_elem_eq_true hmem
      simpa using h
    rcases this with rfl | rfl
    · exact Or.inl hx
    · exact Or.inr hx
  · rintro (h | h)
    · exact ⟨a, h, by simp [List.contains]⟩
    · exact ⟨b, h, by simp [List.contains]⟩

/-- C1: for every string d, ValidateDomain d succeeds iff d matches the
anchored regexp (first and last character alphanumeric, interior characters
alphanumeric, dot or hyphen, length at least two) and contains no double
dot, no slash and no backslash; in particular the empty string and any
string with a leading or trailing dot or hyphen is rejected. -/
theorem C1_validateDomain_spec (d : List Char) :
    (ValidateDomain d = true ↔
      ((∃ c₁ mid c₂, d = c₁ :: (mid ++ [c₂]) ∧ isAlnumA c₁ = true ∧
          isAlnumA c₂ = true ∧ (∀ x ∈ mid, isDomMid x = true)) ∧
        containsSub d ['.', '.'] = false ∧
        '/' ∉ d ∧ '\\' ∉ d))
    ∧ ValidateDomain [] = false
    ∧ (∀ t, ValidateDomain ('.' :: t) = false ∧ ValidateDomain ('-' :: t) = false ∧
        ValidateDomain (t ++ ['.']) = false ∧ ValidateDomain (t ++ ['-']) = false) := by
  have hre_ne : ∀ e : List Char, validDomainRe e = true → e ≠ [] := by
    intro e he
    rcases (validDomainRe_iff e).mp he with ⟨c₁, mid, c₂, heq, _⟩
    simp [heq]
  refine ⟨?_, rfl, ?_⟩
  · constructor
    · intro h
      unfold ValidateDomain at h
      split_ifs at h with h1 h2 h3
      refine ⟨(validDomainRe_iff d).mp h, by simpa using h3, ?_, ?_⟩
      · intro hmem
        exact h2 ((containsAnyOf_two_iff d '/' '\\').mpr (Or.inl hmem))
      · intro hmem
        exact h2 ((containsAnyOf_two_iff d '/' '\\').mpr (Or.inr hmem))
    · rintro ⟨hre, hdd, hs, hb⟩
      have hre' : validDomainRe d = true := (validDomainRe_iff d).mpr hre
      unfold ValidateDomain
      rw [if_neg (hre_ne d hre'), if_neg, if_neg]
      · exact hre'
      · simp [hdd]
      · intro hany
        rcases (containsAnyOf_two_iff d '/' '\\').mp hany with h | h
        · exact hs h
        · exact hb h
  · intro t
    have hlead : ∀ c, isAlnumA c = false → ValidateDomain (c :: t) = false := by
      intro c hc
      have hre : validDomainRe (c :: t) = false := by
        rw [show validDomainRe (c :: t) = (isAlnumA c && domTail t) from rfl]
        simp [hc]
      unfold ValidateDomain
      split_ifs with h1 h2 h3 <;> first | rfl | exact hre
    have htrailRe : ∀ c, isAlnumA c = false → validDomainRe (t ++ [c]) = false := by
      intro c hc
      by_cases h : validDomainRe (t ++ [c]) = true
      · rcases (validDomainRe_iff _).mp h with ⟨c₁, mid, c₂, heq, h1, h2, hmid⟩
        have heq2 : t ++ [c] = (c₁ :: mid) ++ [c₂] := by simpa using heq
        have hlast := congrArg List.getLast? heq2
        rw [List.getLast?_concat, List.getLast?_concat] at hlast
        have hcc : c = c₂ := by simpa using hlast
        rw [← hcc] at h2
        rw [h2] at hc
        simp at hc
      · simpa using h
    have htrail : ∀ c, isAlnumA c = false → ValidateDomain (t ++ [c]) = false := by
      intro c hc
      unfold ValidateDomain
      split_ifs with h1 h2 h3 <;> first | rfl | exact htrailRe c hc
    exact ⟨hlead '.' rfl, hlead '-' rfl, htrail '.' rfl, htrail '-' rfl⟩

-- GSLB model (gslb.go) ------------------------------------------------------

/-- unicode.IsSpace restricted to the ASCII range (space, tab, newline,
vertical tab, form feed, carriage return); used by strings.TrimSpace and
strings.Fields. -/
def isGoSpace (c : Char) : Bool :=
  c == ' ' || c == '\t' || c == '\n' || c == Char.ofNat 11 || c == Char.ofNat 12 || c == '\r'

/-- Go strings.TrimSpace on a character list. -/
def trimLC (s : List Char) : List Char :=
  ((s.dropWhile isGoSpace).reverse.dropWhile isGoSpace).reverse

/-- strings.TrimSpace(content) == "": every character is whitespace. -/
def isBlank (s : String) : Bool := s.toList.all isGoSpace

/-- GSLBBackend from gslb.go. The untyped meta mapping is omitted: no
operation or validation in the manager reads it. Healthchecks hold the
profile names. -/
structure GSLBBackendL where
  address : String
  priority : Int := 0
  weight : Int := 0
  location : String := ""
  disabled : Bool := false
  healthchecks : List String := []
deriving DecidableEq

/-- GSLBRecord from gslb.go. -/
structure GSLBRecordL where
  mode : String
  recordTTL : Int
  scrapeInterval : String
  backends : List GSLBBackendL
deriving DecidableEq

/-- GSLBConfig from gslb.go: the records mapping, as an association list
(Go map iteration order is arbitrary; every property proved below is
order-independent). A none value models a nil record pointer, which the
YAML decoder produces for a null record. The healthcheck profiles mapping
is omitted: no claimed operation inspects it. -/
structure GSLBConfigL where
  records : List (String × Option GSLBRecordL)
deriving DecidableEq

/-- The validModes set of GSLBManager.ValidateRaw. -/
def validMode (m : String) : Bool :=
  m == "failover" || m == "roundrobin" || m == "random" || m == "weighted" || m == "geoip"

/-- The per-backend loop body of ValidateRaw: every backend must have a
non-empty address. -/
def checkBackends : List GSLBBackendL → Bool
  | [] => true
  | b :: rest => (b.address != "") && checkBackends rest

/-- The per-record checks of ValidateRaw: record non-nil, mode in the valid
set, at least one backend, all backend addresses non-empty. -/
def checkRecordL : Option GSLBRecordL → Bool
  | none => false
  | some r => validMode r.mode && !r.backends.isEmpty && checkBackends r.backends

/-- GSLBManager.ValidateRaw, with the YAML decoder abstracted as a parameter
(gopkg.in/yaml.v3 is external to the repository): none models a
deserialization error. True means the Go method returns nil. -/
def ValidateRaw (parse : String → Option GSLBConfigL) (content : String) : Bool :=
  if isBlank content then false
  else
    match parse content with
    | none => false
    | some cfg =>
      if cfg.records.length = 0 then false
      else cfg.records.all (fun e => checkRecordL e.2)

/-- The persisted-configuration invariant of the spec: every record is
non-nil, has a valid mode and at least one backend, and every backend has a
non-empty address. This is exactly the per-record check of ValidateRaw. -/
def gslbInvariant (cfg : GSLBConfigL) : Bool :=
  cfg.records.all (fun e => checkRecordL e.2)

/-- Map lookup cfg.Records[name]. -/
def lookupRecord (cfg : GSLBConfigL) (name : String) : Option (Option GSLBRecordL) :=
  (cfg.records.find? (fun e => e.1 == name)).map (fun e => e.2)

/-- Map store cfg.Records[name] = r (Go mutates the record in place through
the map's pointer; at the value level this replaces the entry). -/
def setRecord (cfg : GSLBConfigL) (name : String) (r : Option GSLBRecordL) : GSLBConfigL :=
  ⟨cfg.records.map (fun e => if e.1 == name then (e.1, r) else e)⟩

/-- GSLBManager.AddRecord at the configuration level: fails when the name
exists, else inserts a record with the given mode and an empty backend
list. -/
def gslbAddRecord (cfg : GSLBConfigL) (name mode : String) (ttl : Int) (si : String) :
    Option GSLBConfigL :=
  if (lookupRecord cfg name).isSome then none
  else some ⟨cfg.records ++ [(name, some ⟨mode, ttl, si, []⟩)]⟩

/-- GSLBManager.RemoveRecord at the configuration level: fails when the name
is absent, else deletes the entry. -/
def gslbRemoveRecord (cfg : GSLBConfigL) (name : String) : Option GSLBConfigL :=
  if (lookupRecord cfg name).isSome then
    some ⟨cfg.records.filter (fun e => !(e.1 == name))⟩
  else none

/-- GSLBManager.UpdateRecord at the configuration level: fails when the name
is absent; a stored nil record makes the Go code dereference a nil pointer,
so no successful write happens there either (modelled as none). -/
def gslbUpdateRecord (cfg : GSLBConfigL) (name mode : String) (ttl : Int) (si : String) :
    Option GSLBConfigL :=
  match lookupRecord cfg name with
  | some (some r) =>
      some (setRecord cfg name (some { r with mode := mode, recordTTL := ttl, scrapeInterval := si }))
  | some none => none
  | none => none

/-- GSLBManager.AddBackend at the configuration level: appends the backend to
the named record. -/
def gslbAddBackend (cfg : GSLBConfigL) (name : String) (b : GSLBBackendL) :
    Option GSLBConfigL :=
  match lookupRecord cfg name with
  | some (some r) => some (setRecord cfg name (some { r with backends := r.backends ++ [b] }))
  | some none => none
  | none => none

/-- GSLBManager.RemoveBackend at the configuration level: index must lie in
the backend range; the splice append(b[:i], b[i+1:]...) drops element i. -/
def gslbRemoveBackend (cfg : GSLBConfigL) (name : String) (i : Int) : Option GSLBConfigL :=
  match lookupRecord cfg name with
  | some (some r) =>
      if i < 0 || (r.backends.length : Int) ≤ i then none
      else some (setRecord cfg name
        (some { r with backends := r.backends.take i.toNat ++ r.backends.drop (i.toNat + 1) }))
  | some none => none
  | none => none

-- Helper lemmas for C5 / C2 -------------------------------------------------

theorem all_eq_false_iff {α : Type} (l : List α) (p : α → Bool) :
    l.all p = false ↔ ∃ x ∈ l, p x = false := by
  induction l with
  | nil => simp
  | cons a t ih => cases hpa : p a <;> simp [List.all_cons, hpa, ih]

theorem checkBackends_eq_true_iff (l : List GSLBBackendL) :
    checkBackends l = true ↔ ∀ b ∈ l, b.address ≠ "" := by
  induction l with
  | nil => simp [checkBackends]
  | cons b t ih =>
    simp only [checkBackends, Bool.and_eq_true, ih, bne_iff_ne, ne_eq]
    constructor
    · rintro ⟨h1, h2⟩ x hx
      rcases List.mem_cons.mp hx with rfl | hx
      · exact h1
      · exact h2 x hx
    · intro h
      exact ⟨h b (by simp), fun x hx => h x (List.mem_cons_of_mem b hx)⟩

theorem checkRecordL_eq_false_iff (r : Option GSLBRecordL) :
    checkRecordL r = false ↔
      r = none ∨ ∃ rr, r = some rr ∧
        (validMode rr.mode = false ∨ rr.backends = [] ∨
          ∃ b ∈ rr.backends, b.address = "") := by
  cases r with
  | none => simp [checkRecordL]
  | some rr =>
    simp only [checkRecordL, Option.some.injEq, reduceCtorEq, false_or]
    constructor
    · intro h
      refine ⟨rr, rfl, ?_⟩
      by_cases hm : validMode rr.mode = true
      · by_cases hne : rr.backends.isEmpty = true
        · exact Or.inr (Or.inl (List.isEmpty_iff.mp hne))
        · have hne' : rr.backends.isEmpty = false := by simpa using hne
          rw [hm, hne'] at h
          simp only [Bool.not_false, Bool.true_and] at h
          refine Or.inr (Or.inr ?_)
          by_contra hno
          push_neg at hno
          have hc : checkBackends rr.backends = true :=
            (checkBackends_eq_true_iff _).mpr hno
          rw [hc] at h
          exact absurd h (by simp)
      · exact Or.inl (by simpa using hm)
    · rintro ⟨rr2, heq, hcase⟩
      subst heq
      rcases hcase with hm | hne | ⟨b, hb, hba⟩
      · simp [hm]
      · rw [hne]
        simp [checkBackends]
      · have hcb : checkBackends rr.backends = false := by
          by_contra hc
          have hc' : checkBackends rr.backends = true := by simpa using hc
          exact absurd hba ((checkBackends_eq_true_iff _).mp hc' b hb)
        simp [hcb]

/-- C5: ValidateRaw fails iff the content is blank, fails to deserialize,
has an empty records mapping, has a nil record, a record with a mode outside
the five valid modes, a record with zero backends, or a backend with an
empty address (the YAML decoder being a parameter of the model). -/
theorem C5_validateRaw_spec (parse : String → Option GSLBConfigL) (content : String) :
    ValidateRaw parse content = false ↔
      isBlank content = true ∨ parse content = none ∨
      ∃ cfg, parse content = some cfg ∧
        (cfg.records = [] ∨
         (∃ n, (n, (none : Option GSLBRecordL)) ∈ cfg.records) ∨
         (∃ n r, (n, some r) ∈ cfg.records ∧ validMode r.mode = false) ∨
         (∃ n r, (n, some r) ∈ cfg.records ∧ r.backends = []) ∨
         (∃ n r b, (n, some r) ∈ cfg.records ∧ b ∈ r.backends ∧ b.address = "")) := by
  unfold ValidateRaw
  by_cases hbl : isBlank content = true
  · simp [hbl]
  · have hbl' : isBlank content = false := by simpa using hbl
    rw [hbl']
    simp only [Bool.false_eq_true, if_false, false_or]
    cases hp : parse content with
    | none => simp
    | some cfg =>
      simp only [Option.some.injEq, reduceCtorEq, false_or]
      by_cases hemp : cfg.records.length = 0
      · have hnil : cfg.records = [] := List.length_eq_zero.mp hemp
        rw [if_pos hemp]
        constructor
        · intro _
          exact ⟨cfg, rfl, Or.inl hnil⟩
        · intro _
          rfl
      · rw [if_neg hemp]
        constructor
        · intro h
          rcases (all_eq_false_iff _ _).mp h with ⟨⟨n, r⟩, hmem, hfail⟩
          refine ⟨cfg, rfl, ?_⟩
          rcases (checkRecordL_eq_false_iff r).mp hfail with hr | ⟨rr, hr, hcase⟩
          · subst hr
            exact Or.inr (Or.inl ⟨n, hmem⟩)
          · subst hr
            rcases hcase with hm | hne | ⟨b, hb, hba⟩
            · exact Or.inr (Or.inr (Or.inl ⟨n, rr, hmem, hm⟩))
            · exact Or.inr (Or.inr (Or.inr (Or.inl ⟨n, rr, hmem, hne⟩)))
            · exact Or.inr (Or.inr (Or.inr (Or.inr ⟨n, rr, b, hmem, hb, hba⟩)))
        · rintro ⟨cfg', hcfg, hcase⟩
          have hcfg2 : cfg' = cfg := hcfg.symm
          subst hcfg2
          rcases hcase with hnil | ⟨n, hmem⟩ | ⟨n, r, hmem, hm⟩ | ⟨n, r, hmem, hne⟩ |
              ⟨n, r, b, hmem, hb, hba⟩
          · exact absurd (congrArg List.length hnil) (by simpa using hemp)
          · exact (all_eq_false_iff _ _).mpr
              ⟨(n, none), hmem, (checkRecordL_eq_false_iff _).mpr (Or.inl rfl)⟩
          · exact (all_eq_false_iff _ _).mpr
              ⟨(n, some r), hmem, (checkRecordL_eq_false_iff _).mpr (Or.inr ⟨r, rfl, Or.inl hm⟩)⟩
          · exact (all_eq_false_iff _ _).mpr
              ⟨(n, some r), hmem,
                (checkRecordL_eq_false_iff _).mpr (Or.inr ⟨r, rfl, Or.inr (Or.inl hne)⟩)⟩
          · exact (all_eq_false_iff _ _).mpr
              ⟨(n, some r), hmem,
                (checkRecordL_eq_false_iff _).mpr
                  (Or.inr ⟨r, rfl, Or.inr (Or.inr ⟨b, hb, hba⟩)⟩)⟩

-- C2: invariant preservation of the GSLB mutating operations ----------------

theorem checkRecordL_some_iff (rr : GSLBRecordL) :
    checkRecordL (some rr) = true ↔
      validMode rr.mode = true ∧ rr.backends ≠ [] ∧ ∀ b ∈ rr.backends, b.address ≠ "" := by
  simp only [checkRecordL, Bool.and_eq_true, checkBackends_eq_true_iff, and_assoc,
    Bool.not_eq_true', List.isEmpty_eq_false, ne_eq]

theorem gslbInvariant_mem (cfg : GSLBConfigL) (e : String × Option GSLBRecordL)
    (hinv : gslbInvariant cfg = true) (hmem : e ∈ cfg.records) :
    checkRecordL e.2 = true :=
  List.all_eq_true.mp hinv e hmem

theorem lookupRecord_checked (cfg : GSLBConfigL) (name : String) (r : Option GSLBRecordL)
    (hinv : gslbInvariant cfg = true) (hl : lookupRecord cfg name = some r) :
    checkRecordL r = true := by
  unfold lookupRecord at hl
  cases hf : cfg.records.find? (fun e => e.1 == name) with
  | none => rw [hf] at hl; exact absurd hl (by simp)
  | some e =>
    rw [hf] at hl
    simp only [Option.map_some'] at hl
    have hmem : e ∈ cfg.records := List.mem_of_find?_eq_some hf
    have hch := gslbInvariant_mem cfg e hinv hmem
    have h2 : e.2 = r := by injection hl
    rwa [h2] at hch

theorem gslbInvariant_setRecord (cfg : GSLBConfigL) (name : String) (r : Option GSLBRecordL)
    (hinv : gslbInvariant cfg = true) (hr : checkRecordL r = true) :
    gslbInvariant (setRecord cfg name r) = true := by
  unfold gslbInvariant setRecord
  rw [List.all_eq_true]
  intro x hx
  rcases List.mem_map.mp hx with ⟨y, hy, hxy⟩
  by_cases hc : (y.1 == name) = true
  · rw [← hxy]
    simpa [hc] using hr
  · rw [← hxy]
    simp only [hc, Bool.false_eq_true, if_false]
    exact gslbInvariant_mem cfg y hinv hy

/-- C2 counterexample configurations: a valid single-record configuration and
the configuration AddRecord writes, whose new record has zero backends. -/
def c2cfg : GSLBConfigL :=
  ⟨[("a.example.com.", some ⟨"failover", 30, "10s",
      [⟨"192.168.1.10", 1, 0, "", false, ["http_default"]⟩]⟩)]⟩

def c2cfgAfter : GSLBConfigL :=
  ⟨[("a.example.com.", some ⟨"failover", 30, "10s",
      [⟨"192.168.1.10", 1, 0, "", false, ["http_default"]⟩]⟩),
    ("b.example.com.", some ⟨"failover", 30, "10s", []⟩)]⟩

/-- C2 counterexample: starting from a configuration satisfying the
invariant, a successful AddRecord writes back a configuration violating it:
the freshly added record has zero backends. So not every mutating operation
preserves the invariant. -/
theorem C2_counterexample :
    gslbInvariant c2cfg = true ∧
    gslbAddRecord c2cfg ("b.example.com.") ("failover") 30 ("10s") = some c2cfgAfter ∧
    gslbInvariant c2cfgAfter = false :=
  ⟨by decide, by decide, by decide⟩

/-- C2 amended: RemoveRecord always preserves the invariant; UpdateRecord
preserves it when the new mode is one of the five valid modes; AddBackend
preserves it when the added backend has a non-empty address; RemoveBackend
preserves it when the target record keeps at least one backend. (AddRecord
does not preserve it: see the counterexample.) -/
theorem C2_gslb_invariant_amended :
    (∀ cfg name cfg', gslbInvariant cfg = true →
      gslbRemoveRecord cfg name = some cfg' → gslbInvariant cfg' = true)
    ∧ (∀ cfg name mode ttl si cfg', gslbInvariant cfg = true → validMode mode = true →
      gslbUpdateRecord cfg name mode ttl si = some cfg' → gslbInvariant cfg' = true)
    ∧ (∀ cfg name b cfg', gslbInvariant cfg = true → b.address ≠ "" →
      gslbAddBackend cfg name b = some cfg' → gslbInvariant cfg' = true)
    ∧ (∀ cfg name i r cfg', gslbInvariant cfg = true →
      lookupRecord cfg name = some (some r) → 2 ≤ r.backends.length →
      gslbRemoveBackend cfg name i = some cfg' → gslbInvariant cfg' = true) := by
  refine ⟨?_, ?_, ?_, ?_⟩
  · intro cfg name cfg' hinv hop
    unfold gslbRemoveRecord at hop
    split_ifs at hop
    injection hop with hop
    subst hop
    unfold gslbInvariant
    rw [List.all_eq_true]
    intro x hx
    exact gslbInvariant_mem cfg x hinv (List.mem_filter.mp hx).1
  · intro cfg name mode ttl si cfg' hinv hmode hop
    unfold gslbUpdateRecord at hop
    cases hl : lookupRecord cfg name with
    | none => rw [hl] at hop; exact absurd hop (by simp)
    | some ro =>
      cases ro with
      | none => rw [hl] at hop; exact absurd hop (by simp)
      | some r =>
        rw [hl] at hop
        injection hop with hop
        subst hop
        have hch := (checkRecordL_some_iff r).mp (lookupRecord_checked cfg name (some r) hinv hl)
        apply gslbInvariant_setRecord cfg name _ hinv
        rw [checkRecordL_some_iff]
        exact ⟨hmode, hch.2.1, hch.2.2⟩
  · intro cfg name b cfg' hinv hb hop
    unfold gslbAddBackend at hop
    cases hl : lookupRecord cfg name with
    | none => rw [hl] at hop; exact absurd hop (by simp)
    | some ro =>
      cases ro with
      | none => rw [hl] at hop; exact absurd hop (by simp)
      | some r =>
        rw [hl] at hop
        injection hop with hop
        subst hop
        have hch := (checkRecordL_some_iff r).mp (lookupRecord_checked cfg name (some r) hinv hl)
        apply gslbInvariant_setRecord cfg name _ hinv
        rw [checkRecordL_some_iff]
        refine ⟨hch.1, by simp, ?_⟩
        intro x hx
        rcases List.mem_append.mp hx with hx | hx
        · exact hch.2.2 x hx
        · rw [List.mem_singleton.mp hx]
          exact hb
  · intro cfg name i r cfg' hinv hl hlen hop
    unfold gslbRemoveBackend at hop
    rw [hl] at hop
    dsimp only at hop
    split_ifs at hop with hguard
    injection hop with hop
    subst hop
    have hch := (checkRecordL_some_iff r).mp (lookupRecord_checked cfg name (some r) hinv hl)
    apply gslbInvariant_setRecord cfg name _ hinv
    rw [checkRecordL_some_iff]
    have hguard2 : ¬ i < 0 ∧ ¬ ((r.backends.length : Int) ≤ i) := by
      simpa [not_or] using hguard
    refine ⟨hch.1, ?_, ?_⟩
    · have hn : i.toNat < r.backends.length := by omega
      have hlen2 : (r.backends.take i.toNat ++ r.backends.drop (i.toNat + 1)).length =
          r.backends.length - 1 := by
        rw [List.length_append, List.length_take, List.length_drop]
        omega
      intro hnil
      dsimp only at hnil
      rw [hnil] at hlen2
      simp at hlen2
      omega
    · intro x hx
      rcases List.mem_append.mp hx with hx | hx
      · exact hch.2.2 x (List.take_subset _ _ hx)
      · exact hch.2.2 x (List.drop_subset _ _ hx)

/-- Concrete configurations used to witness the amended C2 theorem. -/
def c2upd : GSLBConfigL :=
  ⟨[("a.example.com.", some ⟨"random", 60, "5s",
      [⟨"192.168.1.10", 1, 0, "", false, ["http_default"]⟩]⟩)]⟩

def c2ab : GSLBConfigL :=
  ⟨[("a.example.com.", some ⟨"failover", 30, "10s",
      [⟨"192.168.1.10", 1, 0, "", false, ["http_default"]⟩,
       ⟨"10.0.0.2", 2, 0, "", false, []⟩]⟩)]⟩

def c2two : GSLBConfigL :=
  ⟨[("a.example.com.", some ⟨"failover", 30, "10s",
      [⟨"192.168.1.10", 1, 0, "", false, []⟩,
       ⟨"10.0.0.2", 2, 0, "", false, []⟩]⟩)]⟩

def c2twoAfter : GSLBConfigL :=
  ⟨[("a.example.com.", some ⟨"failover", 30, "10s",
      [⟨"10.0.0.2", 2, 0, "", false, []⟩]⟩)]⟩

theorem C2_gslb_invariant_amended_witness :
    gslbInvariant (⟨[]⟩ : GSLBConfigL) = true ∧ gslbInvariant c2upd = true ∧
    gslbInvariant c2ab = true ∧ gslbInvariant c2twoAfter = true :=
  ⟨C2_gslb_invariant_amended.1 c2cfg ("a.example.com.") ⟨[]⟩ (by decide) (by decide),
   C2_gslb_invariant_amended.2.1 c2cfg ("a.example.com.") ("random") 60 ("5s") c2upd
     (by decide) (by decide) (by decide),
   C2_gslb_invariant_amended.2.2.1 c2cfg ("a.example.com.")
     ⟨"10.0.0.2", 2, 0, "", false, []⟩ c2ab (by decide) (by decide) (by decide),
   C2_gslb_invariant_amended.2.2.2 c2two ("a.example.com.") 0
     ⟨"failover", 30, "10s",
       [⟨"192.168.1.10", 1, 0, "", false, []⟩, ⟨"10.0.0.2", 2, 0, "", false, []⟩]⟩
     c2twoAfter (by decide) (by decide) (by decide) (by decide)⟩

-- Content normalization (zone.go Write, hosts.go Write, Corefile Write) -----

/-- strings.ReplaceAll(s, CRLF, LF): one left-to-right pass over
non-overlapping occurrences. -/
def replaceCRLF : List Char → List Char
  | [] => []
  | '\r' :: '\n' :: rest => '\n' :: replaceCRLF rest
  | c :: rest => c :: replaceCRLF rest

/-- The shared normalization step before every write: replace CRLF by LF,
then append one LF when the content does not already end in LF. -/
def normalizeContent (s : List Char) : List Char :=
  if (replaceCRLF s).getLast? = some '\n' then replaceCRLF s
  else replaceCRLF s ++ ['\n']

/-- HostsManager.Write: content written for given input content. -/
def hostsWriteContent (s : List Char) : List Char := normalizeContent s

/-- CorefileManager.Write: content written for given input content. -/
def corefileWriteContent (s : List Char) : List Char := normalizeContent s

-- Hosts file model (hosts.go) -----------------------------------------------

/-- strings.Split(s, LF): the pieces between newline characters (one more
piece than there are newlines). -/
def splitNL : List Char → List (List Char)
  | [] => [[]]
  | c :: rest =>
    if c = '\n' then [] :: splitNL rest
    else
      match splitNL rest with
      | h :: t => (c :: h) :: t
      | [] => [[c]]

/-- strings.Join(lines, LF). -/
def joinNL : List (List Char) → List Char
  | [] => []
  | [l] => l
  | l :: rest => l ++ '\n' :: joinNL rest

theorem splitNL_ne_nil (s : List Char) : splitNL s ≠ [] := by
  cases s with
  | nil => simp [splitNL]
  | cons c rest =>
    unfold splitNL
    split_ifs
    · simp
    · cases h : splitNL rest <;> simp

theorem joinNL_splitNL (s : List Char) : joinNL (splitNL s) = s := by
  induction s with
  | nil => rfl
  | cons c rest ih =>
    unfold splitNL
    split_ifs with hc
    · cases h : splitNL rest with
      | nil => exact absurd h (splitNL_ne_nil rest)
      | cons h2 t2 =>
        rw [show joinNL ([] :: h2 :: t2) = [] ++ '\n' :: joinNL (h2 :: t2) from rfl]
        rw [← h, ih, hc]
        rfl
    · cases h : splitNL rest with
      | nil => exact absurd h (splitNL_ne_nil rest)
      | cons h2 t2 =>
        cases t2 with
        | nil =>
          rw [show joinNL [c :: h2] = c :: h2 from rfl]
          have : joinNL [h2] = rest := by rw [← h, ih]
          rw [show joinNL [h2] = h2 from rfl] at this
          rw [this]
        | cons h3 t3 =>
          rw [show joinNL ((c :: h2) :: h3 :: t3) = (c :: h2) ++ '\n' :: joinNL (h3 :: t3) from rfl]
          have : joinNL (h2 :: h3 :: t3) = rest := by rw [← h, ih]
          rw [show joinNL (h2 :: h3 :: t3) = h2 ++ '\n' :: joinNL (h3 :: t3) from rfl] at this
          simp [← this]

/-- strings.Fields: split on runs of whitespace, dropping empty fields
(accumulator-based; acc holds the current field reversed). -/
def fieldsAux : List Char → List Char → List (List Char)
  | [], acc => if acc = [] then [] else [acc.reverse]
  | c :: rest, acc =>
    if isGoSpace c then
      if acc = [] then fieldsAux rest []
      else acc.reverse :: fieldsAux rest []
    else fieldsAux rest (c :: acc)

def goFields (s : List Char) : List (List Char) := fieldsAux s []

/-- The per-line match of HostsManager.RemoveEntry: a non-blank,
non-comment line whose first two whitespace-delimited fields equal the
requested ip and hostname. -/
def hostLineMatches (ip hn line : List Char) : Bool :=
  let t := trimLC line
  if t.head? = some '#' then false
  else if t = [] then false
  else
    match goFields t with
    | f0 :: f1 :: _ => f0 == ip && f1 == hn
    | _ => false

/-- The remove-first-matching-line loop shared by HostsManager.RemoveEntry
and ZoneManager.RemoveRecord: returns the remaining lines and whether a
line was removed. -/
def removeFirstLine (p : List Char → Bool) : List (List Char) → (List (List Char) × Bool)
  | [] => ([], false)
  | l :: rest =>
    if p l then (rest, true)
    else
      let r := removeFirstLine p rest
      (l :: r.1, r.2)

/-- HostsManager.RemoveEntry: the content written back. The removed flag is
computed but never consulted after the loop, so apart from I/O failures the
method always succeeds; some models that unconditional success. -/
def hostsRemoveEntryOp (raw ip hn : List Char) : Option (List Char) :=
  some (joinNL (removeFirstLine (hostLineMatches ip hn) (splitNL raw)).1)

/-- HostsManager.AddEntry: content written given the existing file content
(none = the file does not exist; that read error is tolerated and treated
as empty content). -/
def addEntryContent (existing : Option (List Char)) (ip hn : List Char) : List Char :=
  let content := existing.getD []
  let line := ip ++ '\t' :: hn
  if content = [] then line ++ ['\n']
  else (if content.getLast? = some '\n' then content else content ++ ['\n']) ++ line ++ ['\n']

-- Lemmas about removeFirstLine ----------------------------------------------

theorem removeFirstLine_of_none (p : List Char → Bool) (ls : List (List Char))
    (h : ∀ l ∈ ls, p l = false) : removeFirstLine p ls = (ls, false) := by
  induction ls with
  | nil => rfl
  | cons l rest ih =>
    unfold removeFirstLine
    rw [h l (by simp)]
    simp only [Bool.false_eq_true, if_false]
    rw [ih (fun x hx => h x (List.mem_cons_of_mem l hx))]

/-- Index of the first line satisfying p, if any. -/
def findIdxL (p : List Char → Bool) : List (List Char) → Option Nat
  | [] => none
  | l :: rest => if p l then some 0 else (findIdxL p rest).map (· + 1)

theorem removeFirstLine_of_found (p : List Char → Bool) (ls : List (List Char)) (i : Nat)
    (h : findIdxL p ls = some i) : removeFirstLine p ls = (ls.eraseIdx i, true) := by
  induction ls generalizing i with
  | nil => simp [findIdxL] at h
  | cons l rest ih =>
    unfold findIdxL at h
    unfold removeFirstLine
    by_cases hp : p l = true
    · rw [hp] at h
      simp only [if_true] at h
      injection h with h
      subst h
      simp [hp, List.eraseIdx]
    · have hp' : p l = false := by simpa using hp
      rw [hp'] at h
      simp only [Bool.false_eq_true, if_false] at h
      cases hfi : findIdxL p rest with
      | none => rw [hfi] at h; simp at h
      | some j =>
        rw [hfi] at h
        simp only [Option.map_some'] at h
        injection h with h
        subst h
        rw [hp']
        simp only [Bool.false_eq_true, if_false]
        rw [ih j hfi]
        simp [List.eraseIdx]

theorem findIdxL_eq_none_of_all_false (p : List Char → Bool) (ls : List (List Char))
    (h : ∀ l ∈ ls, p l = false) : findIdxL p ls = none := by
  induction ls with
  | nil => rfl
  | cons l rest ih =>
    unfold findIdxL
    rw [h l (by simp)]
    simp only [Bool.false_eq_true, if_false]
    rw [ih (fun x hx => h x (List.mem_cons_of_mem l hx))]
    rfl

theorem findIdxL_none_all_false (p : List Char → Bool) (ls : List (List Char))
    (h : findIdxL p ls = none) : ∀ l ∈ ls, p l = false := by
  induction ls with
  | nil => simp
  | cons l rest ih =>
    unfold findIdxL at h
    by_cases hp : p l = true
    · rw [hp] at h; simp at h
    · have hp' : p l = false := by simpa using hp
      rw [hp'] at h
      simp only [Bool.false_eq_true, if_false] at h
      intro x hx
      rcases List.mem_cons.mp hx with rfl | hx
      · exact hp'
      · cases hfi : findIdxL p rest with
        | none => exact ih hfi x hx
        | some j => rw [hfi] at h; simp at h

-- C7: HostsManager.RemoveEntry ----------------------------------------------

/-- Concrete hosts content with no line matching ip 5.6.7.8 / hostname x. -/
def c7raw : List Char := ("# static entries\n1.2.3.4\thost.example\n").toList

def c7ip : List Char := ("5.6.7.8").toList

def c7hn : List Char := ("x").toList

/-- C7 counterexample: a hosts file where no line matches the requested
(ip, hostname); RemoveEntry nevertheless succeeds (the removed flag is never
checked, so there is no NotFound error) and rewrites the file with content
identical to what it read. -/
theorem C7_counterexample :
    ((splitNL c7raw).all (fun l => !(hostLineMatches c7ip c7hn l))) = true ∧
    hostsRemoveEntryOp c7raw c7ip c7hn = some c7raw :=
  ⟨by decide, by decide⟩

/-- C7 amended: RemoveEntry removes only the first non-comment line whose
first two whitespace-delimited fields equal (ip, hostname), preserving every
other line verbatim; when no line matches, it succeeds silently, writing
back content identical to the file it read (it does not return a NotFound
error). -/
theorem C7_hosts_removeEntry_amended (raw ip hn : List Char) :
    (findIdxL (hostLineMatches ip hn) (splitNL raw) = none →
      hostsRemoveEntryOp raw ip hn = some raw)
    ∧ (∀ i, findIdxL (hostLineMatches ip hn) (splitNL raw) = some i →
      hostsRemoveEntryOp raw ip hn = some (joinNL ((splitNL raw).eraseIdx i))) := by
  constructor
  · intro h
    unfold hostsRemoveEntryOp
    rw [removeFirstLine_of_none _ _ (findIdxL_none_all_false _ _ h)]
    rw [joinNL_splitNL]
  · intro i h
    unfold hostsRemoveEntryOp
    rw [removeFirstLine_of_found _ _ i h]

/-- Concrete hosts content whose second line matches (1.2.3.4, host). -/
def c7raw2 : List Char := ("# c\n1.2.3.4\thost\n9.9.9.9 other\n").toList

theorem C7_hosts_removeEntry_amended_witness :
    hostsRemoveEntryOp c7raw c7ip c7hn = some c7raw ∧
    hostsRemoveEntryOp c7raw2 (("1.2.3.4").toList) (("host").toList) =
      some (("# c\n9.9.9.9 other\n").toList) :=
  ⟨(C7_hosts_removeEntry_amended c7raw c7ip c7hn).1 (by decide),
   by
    have h := (C7_hosts_removeEntry_amended c7raw2 (("1.2.3.4").toList) (("host").toList)).2
      1 (by decide)
    rw [h]
    decide⟩

-- C10: HostsManager.AddEntry ------------------------------------------------

/-- C10: AddEntry on a missing file (the not-exist read error is tolerated)
creates content that is exactly ip, tab, hostname, LF; on an existing file
it appends that line after ensuring the existing content ends in LF, and
the existing content stays a verbatim prefix of the written content. -/
theorem C10_hosts_addEntry (ip hn c : List Char) :
    addEntryContent none ip hn = ip ++ '\t' :: hn ++ ['\n']
    ∧ addEntryContent (some []) ip hn = ip ++ '\t' :: hn ++ ['\n']
    ∧ (c ≠ [] →
        addEntryContent (some c) ip hn =
          (if c.getLast? = some '\n' then c else c ++ ['\n']) ++ ip ++ '\t' :: hn ++ ['\n']
        ∧ c.isPrefixOf (addEntryContent (some c) ip hn) = true) := by
  refine ⟨by simp [addEntryContent], by simp [addEntryContent], ?_⟩
  intro hc
  have heq : addEntryContent (some c) ip hn =
      (if c.getLast? = some '\n' then c else c ++ ['\n']) ++ ip ++ '\t' :: hn ++ ['\n'] := by
    unfold addEntryContent
    simp only [Option.getD_some, hc, if_false]
    split_ifs <;> simp
  refine ⟨heq, ?_⟩
  rw [heq]
  split_ifs with hlast
  · simp only [List.append_assoc]
    exact List.isPrefixOf_iff_prefix.mpr (List.prefix_append c _)
  · simp only [List.append_assoc]
    exact List.isPrefixOf_iff_prefix.mpr (List.prefix_append c _)

theorem C10_hosts_addEntry_witness :
    addEntryContent (some (("1.2.3.4\thost").toList)) (("9.9.9.9").toList) (("x").toList) =
      (("1.2.3.4\thost\n9.9.9.9\tx\n").toList) ∧
    (("1.2.3.4\thost").toList).isPrefixOf
      (addEntryContent (some (("1.2.3.4\thost").toList)) (("9.9.9.9").toList) (("x").toList)) =
      true := by
  have h := (C10_hosts_addEntry (("9.9.9.9").toList) (("x").toList)
    (("1.2.3.4\thost").toList)).2.2 (by decide)
  refine ⟨?_, h.2⟩
  rw [h.1]
  decide

-- SOA serial increment (zone.go incrementSOASerial) -------------------------

/-- Go regexp character class backslash-s: tab, newline, form feed, carriage
return, space. -/
def isReWS (c : Char) : Bool :=
  c == ' ' || c == '\t' || c == '\n' || c == Char.ofNat 12 || c == '\r'

/-- ASCII digit, the regexp class backslash-d. -/
def isDigitA (c : Char) : Bool :=
  ('0' ≤ c && c ≤ '9')

/-- Split off the maximal leading whitespace run. -/
def wsSplit : List Char → List Char × List Char
  | [] => ([], [])
  | c :: rest =>
    if isReWS c then
      let r := wsSplit rest
      (c :: r.1, r.2)
    else ([], c :: rest)

/-- Group three of the first serial regexp after the ten digits: optional
whitespace, a semicolon, optional whitespace, the literal word serial.
Returns the matched text and the remaining input. -/
def tailMatch1 (s : List Char) : Option (List Char × List Char) :=
  match (wsSplit s).2 with
  | c :: r2 =>
    if c = ';' then
      if (("serial").toList).isPrefixOf (wsSplit r2).2 then
        some ((wsSplit s).1 ++ c :: ((wsSplit r2).1 ++ ("serial").toList),
          ((wsSplit r2).2).drop 6)
      else none
    else none
  | [] => none

/-- Group three of the fallback serial regexp: a single whitespace
character. -/
def tailMatch2 (s : List Char) : Option (List Char × List Char) :=
  match s with
  | c :: rest => if isReWS c then some ([c], rest) else none
  | [] => none

/-- A match of one serial regexp at the current position: one or more
whitespace characters, exactly ten digits, then the group-three tail.
Returns (whitespace, ten-digit token, tail text, rest). -/
def matchAt (tm : List Char → Option (List Char × List Char)) (s : List Char) :
    Option (List Char × List Char × List Char × List Char) :=
  let w := (wsSplit s).1
  let r1 := (wsSplit s).2
  if w = [] then none
  else
    let tok := r1.take 10
    let r2 := r1.drop 10
    if tok.length = 10 && tok.all isDigitA then
      match tm r2 with
      | some (tl, rest) => some (w, tok, tl, rest)
      | none => none
    else none

/-- Leftmost match of a serial regexp: Go FindStringSubmatch semantics.
Returns (text before the match, whitespace, token, tail, text after). -/
def findSplit (tm : List Char → Option (List Char × List Char)) :
    List Char → Option (List Char × List Char × List Char × List Char × List Char)
  | [] => none
  | c :: rest =>
    match matchAt tm (c :: rest) with
    | some (w, tok, tl, suf) => some ([], w, tok, tl, suf)
    | none =>
      match findSplit tm rest with
      | some (p, w, tok, tl, suf) => some (c :: p, w, tok, tl, suf)
      | none => none

/-- The serial search of incrementSOASerial: the first regexp (with the
semicolon-serial comment), falling back to the plain one. -/
def findSerialSplit (s : List Char) :
    Option (List Char × List Char × List Char × List Char × List Char) :=
  match findSplit tailMatch1 s with
  | some x => some x
  | none => findSplit tailMatch2 s

/-- Go strings.Replace(s, p, r, 1): replace the first occurrence of p. -/
def replaceFirst : List Char → List Char → List Char → List Char
  | [], p, r => if p = [] then r else []
  | s@(c :: rest), p, r =>
    if p.isPrefixOf s then r ++ s.drop p.length
    else c :: replaceFirst rest p r

def digitChar (n : Nat) : Char := Char.ofNat (48 + n)

/-- Decimal rendering of a natural number (fuel-based so that it reduces by
evaluation; the fuel n+1 always suffices). -/
def natDigitsAux : Nat → Nat → List Char
  | 0, _ => []
  | fuel + 1, n =>
    if n < 10 then [digitChar n]
    else natDigitsAux fuel (n / 10) ++ [digitChar (n % 10)]

def natDigits (n : Nat) : List Char := natDigitsAux (n + 1) n

/-- fmt.Sprintf with a percent-zero-two-d verb on a non-negative value: at
least two digits, zero padded. -/
def pad2 (n : Nat) : List Char :=
  let d := natDigits n
  if d.length < 2 then '0' :: d else d

/-- strconv.Atoi on the strings reaching it here (all-digit strings; the Go
code discards the error, leaving zero on any failure). -/
def goAtoi (s : List Char) : Nat :=
  if !s.isEmpty && s.all isDigitA then
    s.foldl (fun a c => a * 10 + (c.toNat - 48)) 0
  else 0

/-- incrementSOASerial from zone.go: locate the serial token via the two
regexps, then rebuild the serial (same day: sequence+1 zero-padded to two
digits; different day: today plus zero-one) and replace the first
occurrence of the matched text. today is time.Now().Format("20060102"). -/
def incrementSOASerial (today content : List Char) : List Char :=
  match findSerialSplit content with
  | none => content
  | some (_, w, tok, tl, _) =>
    let newSerial :=
      if today.isPrefixOf tok then today ++ pad2 (goAtoi (tok.drop 8) + 1)
      else today ++ ("01").toList
    replaceFirst content (w ++ tok ++ tl) (w ++ newSerial ++ tl)

/-- ZoneManager.Write: the content written for a given input content
(normalize line endings, ensure trailing newline, bump the serial). -/
def zoneWriteContent (today s : List Char) : List Char :=
  incrementSOASerial today (normalizeContent s)

-- Soundness of the serial matcher -------------------------------------------

/-- Tail texts produced by the first serial regexp group three. -/
def tail1Shape (tl : List Char) : Prop :=
  ∃ w1 w2, tl = w1 ++ ';' :: (w2 ++ ("serial").toList) ∧
    w1.all isReWS = true ∧ w2.all isReWS = true

/-- Tail texts produced by the fallback regexp group three. -/
def tail2Shape (tl : List Char) : Prop :=
  ∃ c, tl = [c] ∧ isReWS c = true

theorem isReWS_of_digit (c : Char) (h : isDigitA c = true) : isReWS c = false := by
  have h1 : c ≠ ' ' := by rintro rfl; revert h; decide
  have h2 : c ≠ '\t' := by rintro rfl; revert h; decide
  have h3 : c ≠ '\n' := by rintro rfl; revert h; decide
  have h4 : c ≠ Char.ofNat 12 := by rintro rfl; revert h; decide
  have h5 : c ≠ '\r' := by rintro rfl; revert h; decide
  simp [isReWS, h1, h2, h3, h4, h5]

theorem wsSplit_exact (w : List Char) (hw : w.all isReWS = true) (x : Char)
    (hx : isReWS x = false) (r : List Char) : wsSplit (w ++ x :: r) = (w, x :: r) := by
  induction w with
  | nil =>
    unfold wsSplit
    simp [hx]
  | cons c w' ih =>
    have hc : isReWS c = true := (List.all_eq_true.mp hw c (by simp))
    have hw' : w'.all isReWS = true :=
      List.all_eq_true.mpr (fun y hy => List.all_eq_true.mp hw y (by simp [hy]))
    rw [List.cons_append]
    unfold wsSplit
    simp only [hc, if_true]
    rw [ih hw']

theorem wsSplit_sound (s : List Char) :
    s = (wsSplit s).1 ++ (wsSplit s).2 ∧ (wsSplit s).1.all isReWS = true ∧
    (∀ c r, (wsSplit s).2 = c :: r → isReWS c = false) := by
  induction s with
  | nil => exact ⟨rfl, rfl, by intro c r h; exact absurd h (by simp [wsSplit])⟩
  | cons c rest ih =>
    by_cases hc : isReWS c = true
    · unfold wsSplit
      simp only [hc, if_true]
      refine ⟨?_, ?_, ?_⟩
      · show c :: rest = c :: (wsSplit rest).1 ++ (wsSplit rest).2
        rw [List.cons_append, ← ih.1]
      · show (c :: (wsSplit rest).1).all isReWS = true
        simp only [List.all_cons, hc, Bool.true_and]
        exact ih.2.1
      · exact ih.2.2
    · have hc' : isReWS c = false := by simpa using hc
      unfold wsSplit
      simp only [hc', Bool.false_eq_true, if_false]
      refine ⟨rfl, rfl, ?_⟩
      intro c2 r2 h
      injection h with h1 h2
      rw [← h1]
      exact hc'

theorem isPrefixOf_drop (p s : List Char) (h : p.isPrefixOf s = true) :
    s = p ++ s.drop p.length := by
  induction p generalizing s with
  | nil => simp
  | cons c p' ih =>
    cases s with
    | nil => simp [List.isPrefixOf] at h
    | cons d s' =>
      simp only [List.isPrefixOf, Bool.and_eq_true, beq_iff_eq] at h
      rw [List.cons_append, h.1.symm]
      have := ih s' h.2
      simp only [List.length_cons, List.drop_succ_cons]
      rw [← this]

theorem isPrefixOf_append_self (p t : List Char) : p.isPrefixOf (p ++ t) = true :=
  List.isPrefixOf_iff_prefix.mpr (List.prefix_append p t)

theorem tailMatch1_sound (s tl rest : List Char) (h : tailMatch1 s = some (tl, rest)) :
    s = tl ++ rest ∧ tail1Shape tl := by
  unfold tailMatch1 at h
  split at h
  next c r2 heq =>
    split_ifs at h with hc hser
    subst hc
    injection h with h
    injection h with h1 h2
    obtain ⟨hdec, hws, _⟩ := wsSplit_sound s
    obtain ⟨hdec2, hws2, _⟩ := wsSplit_sound r2
    have hr3 : (wsSplit r2).2 = ("serial").toList ++ ((wsSplit r2).2).drop 6 := by
      have hpre := isPrefixOf_drop _ _ hser
      have h6 : ("serial").toList.length = 6 := rfl
      rw [h6] at hpre
      exact hpre
    constructor
    · rw [← h1, ← h2]
      conv_lhs => rw [hdec, heq, hdec2, hr3]
      simp [List.append_assoc]
    · refine ⟨(wsSplit s).1, (wsSplit r2).1, ?_, hws, hws2⟩
      rw [← h1]
  next => exact absurd h (by simp)

theorem tailMatch1_complete (tl : List Char) (hsh : tail1Shape tl) (rest : List Char) :
    tailMatch1 (tl ++ rest) = some (tl, rest) := by
  obtain ⟨w1, w2, htl, hw1, hw2⟩ := hsh
  have hsemi : isReWS ';' = false := by decide
  have hs2 : isReWS 's' = false := by decide
  have hX : wsSplit (w2 ++ (("serial").toList ++ rest)) = (w2, ("serial").toList ++ rest) := by
    have harg : w2 ++ (("serial").toList ++ rest) =
        w2 ++ 's' :: (("erial").toList ++ rest) := rfl
    rw [harg]
    exact wsSplit_exact w2 hw2 's' hs2 _
  have e1 : tl ++ rest = w1 ++ ';' :: (w2 ++ (("serial").toList ++ rest)) := by
    rw [htl]
    simp [List.append_assoc]
  unfold tailMatch1
  rw [e1, wsSplit_exact w1 hw1 ';' hsemi _]
  dsimp only
  rw [hX]
  dsimp only
  rw [isPrefixOf_append_self]
  simp only [if_pos rfl, if_true]
  rw [show (6 : Nat) = ("serial").toList.length from rfl, List.drop_left]
  rw [htl]

theorem tailMatch2_sound (s tl rest : List Char) (h : tailMatch2 s = some (tl, rest)) :
    s = tl ++ rest ∧ tail2Shape tl := by
  unfold tailMatch2 at h
  split at h
  next c r =>
    split_ifs at h with hc
    injection h with h
    injection h with h1 h2
    subst h2
    exact ⟨by rw [← h1]; rfl, ⟨c, h1.symm, hc⟩⟩
  next => exact absurd h (by simp)

theorem tailMatch2_complete (tl : List Char) (hsh : tail2Shape tl) (rest : List Char) :
    tailMatch2 (tl ++ rest) = some (tl, rest) := by
  obtain ⟨c, htl, hc⟩ := hsh
  subst htl
  unfold tailMatch2
  simp [hc]

theorem matchAt_sound (tm : List Char → Option (List Char × List Char))
    (shape : List Char → Prop)
    (tmS : ∀ s tl rest, tm s = some (tl, rest) → s = tl ++ rest ∧ shape tl)
    (s w tok tl rest : List Char) (h : matchAt tm s = some (w, tok, tl, rest)) :
    s = w ++ (tok ++ (tl ++ rest)) ∧ w ≠ [] ∧ w.all isReWS = true ∧
    tok.length = 10 ∧ tok.all isDigitA = true ∧ shape tl := by
  unfold matchAt at h
  dsimp only at h
  split_ifs at h with hw hguard
  split at h
  next tl2 rest2 heq =>
    injection h with h
    injection h with h1 h
    injection h with h2 h
    injection h with h3 h4
    subst h1
    subst h2
    subst h3
    subst h4
    obtain ⟨hdec, hws, _⟩ := wsSplit_sound s
    obtain ⟨htm, hsh⟩ := tmS _ _ _ heq
    rw [Bool.and_eq_true] at hguard
    refine ⟨?_, hw, hws, by simpa using hguard.1, by simpa using hguard.2, hsh⟩
    conv_lhs => rw [hdec]
    congr 1
    rw [← htm]
    exact (List.take_append_drop 10 _).symm
  next => exact absurd h (by simp)

theorem matchAt_complete (tm : List Char → Option (List Char × List Char))
    (shape : List Char → Prop)
    (tmC : ∀ tl rest, shape tl → tm (tl ++ rest) = some (tl, rest))
    (w tok tl rest : List Char) (hw : w ≠ []) (hws : w.all isReWS = true)
    (hlen : tok.length = 10) (hdig : tok.all isDigitA = true) (hsh : shape tl) :
    matchAt tm (w ++ (tok ++ (tl ++ rest))) = some (w, tok, tl, rest) := by
  have htok : ∃ d tok', tok = d :: tok' := by
    cases tok with
    | nil => simp at hlen
    | cons d tok' => exact ⟨d, tok', rfl⟩
  obtain ⟨d, tok', htok⟩ := htok
  have hd : isDigitA d = true := by
    rw [htok] at hdig
    exact List.all_eq_true.mp hdig d (by simp)
  have hdws : isReWS d = false := isReWS_of_digit d hd
  have hsplit : wsSplit (w ++ (tok ++ (tl ++ rest))) = (w, tok ++ (tl ++ rest)) := by
    rw [htok]
    exact wsSplit_exact w hws d hdws _
  unfold matchAt
  rw [hsplit]
  dsimp only
  rw [if_neg hw]
  have htake : (tok ++ (tl ++ rest)).take 10 = tok := by
    rw [← hlen]
    exact List.take_left tok _
  have hdrop : (tok ++ (tl ++ rest)).drop 10 = tl ++ rest := by
    rw [← hlen]
    exact List.drop_left tok _
  rw [htake, hdrop, hlen, hdig]
  simp only [if_pos rfl]
  rw [tmC tl rest hsh]
  simp

theorem findSplit_sound (tm : List Char → Option (List Char × List Char))
    (shape : List Char → Prop)
    (tmS : ∀ s tl rest, tm s = some (tl, rest) → s = tl ++ rest ∧ shape tl)
    (s p w tok tl suf : List Char)
    (h : findSplit tm s = some (p, w, tok, tl, suf)) :
    s = p ++ (w ++ (tok ++ (tl ++ suf))) ∧ w ≠ [] ∧ w.all isReWS = true ∧
    tok.length = 10 ∧ tok.all isDigitA = true ∧ shape tl ∧
    (∀ j, j < p.length → matchAt tm (s.drop j) = none) := by
  induction s generalizing p with
  | nil => simp [findSplit] at h
  | cons c rest ih =>
    unfold findSplit at h
    split at h
    next w2 tok2 tl2 suf2 heq =>
      injection h with h
      injection h with h1 h
      injection h with h2 h
      injection h with h3 h
      injection h with h4 h5
      subst h1; subst h2; subst h3; subst h4; subst h5
      obtain ⟨hdec, hw, hws, hlen, hdig, hsh⟩ := matchAt_sound tm shape tmS _ _ _ _ _ heq
      exact ⟨hdec, hw, hws, hlen, hdig, hsh, by intro j hj; simp at hj⟩
    next hnm =>
      split at h
      next p2 w2 tok2 tl2 suf2 heq =>
        injection h with h
        injection h with h1 h
        injection h with h2 h
        injection h with h3 h
        injection h with h4 h5
        subst h2; subst h3; subst h4; subst h5
        obtain ⟨hdec, hw, hws, hlen, hdig, hsh, hleft⟩ := ih p2 heq
        subst h1
        refine ⟨by rw [List.cons_append, ← hdec], hw, hws, hlen, hdig, hsh, ?_⟩
        intro j hj
        cases j with
        | zero => exact hnm
        | succ j2 =>
          rw [List.drop_succ_cons]
          exact hleft j2 (by simpa using hj)
      next => exact absurd h (by simp)

theorem replaceFirst_split (p r : List Char) (hp : p ≠ []) :
    ∀ a b : List Char,
      (∀ j, j < a.length → p.isPrefixOf ((a ++ (p ++ b)).drop j) = false) →
      replaceFirst (a ++ (p ++ b)) p r = a ++ (r ++ b) := by
  intro a
  induction a with
  | nil =>
    intro b _
    show replaceFirst (p ++ b) p r = r ++ b
    cases p with
    | nil => exact absurd rfl hp
    | cons c p' =>
      rw [List.cons_append]
      unfold replaceFirst
      rw [show c :: (p' ++ b) = (c :: p') ++ b from rfl]
      rw [isPrefixOf_append_self (c :: p') b]
      simp only [if_true]
      rw [List.drop_left]
  | cons x a' ih =>
    intro b hno
    show replaceFirst ((x :: a') ++ (p ++ b)) p r = (x :: a') ++ (r ++ b)
    rw [List.cons_append, List.cons_append]
    unfold replaceFirst
    have h0 : p.isPrefixOf (x :: (a' ++ (p ++ b))) = false := by
      have h := hno 0 (by simp)
      simpa using h
    rw [h0]
    simp only [Bool.false_eq_true, if_false]
    congr 1
    apply ih
    intro j hj
    have h := hno (j + 1) (by simpa using Nat.succ_lt_succ hj)
    simpa using h

theorem findSplit_no_occ (tm : List Char → Option (List Char × List Char))
    (shape : List Char → Prop)
    (tmS : ∀ s tl rest, tm s = some (tl, rest) → s = tl ++ rest ∧ shape tl)
    (tmC : ∀ tl rest, shape tl → tm (tl ++ rest) = some (tl, rest))
    (s p w tok tl suf : List Char)
    (h : findSplit tm s = some (p, w, tok, tl, suf)) :
    ∀ j, j < p.length → (w ++ (tok ++ tl)).isPrefixOf (s.drop j) = false := by
  obtain ⟨hdec, hw, hws, hlen, hdig, hsh, hleft⟩ :=
    findSplit_sound tm shape tmS s p w tok tl suf h
  intro j hj
  by_contra hocc
  have hocc2 : (w ++ (tok ++ tl)).isPrefixOf (s.drop j) = true := by simpa using hocc
  have hdecomp := isPrefixOf_drop _ _ hocc2
  have hma : matchAt tm (s.drop j) =
      some (w, tok, tl, (s.drop j).drop (w ++ (tok ++ tl)).length) := by
    conv_lhs => rw [hdecomp]
    have e : (w ++ (tok ++ tl)) ++ ((s.drop j).drop (w ++ (tok ++ tl)).length) =
        w ++ (tok ++ (tl ++ ((s.drop j).drop (w ++ (tok ++ tl)).length))) := by
      simp [List.append_assoc]
    rw [e]
    exact matchAt_complete tm shape tmC w tok tl _ hw hws hlen hdig hsh
  rw [hleft j hj] at hma
  exact absurd hma (by simp)

theorem findSplit_replaceFirst (tm : List Char → Option (List Char × List Char))
    (shape : List Char → Prop)
    (tmS : ∀ s tl rest, tm s = some (tl, rest) → s = tl ++ rest ∧ shape tl)
    (tmC : ∀ tl rest, shape tl → tm (tl ++ rest) = some (tl, rest))
    (hshne : ∀ tl, shape tl → tl ≠ [])
    (content p w tok tl suf r : List Char)
    (h : findSplit tm content = some (p, w, tok, tl, suf)) :
    replaceFirst content (w ++ tok ++ tl) (w ++ r ++ tl) =
      p ++ (w ++ (r ++ (tl ++ suf))) ∧
    content = p ++ (w ++ (tok ++ (tl ++ suf))) ∧ tl ≠ [] := by
  obtain ⟨hdec, hw, hws, hlen, hdig, hsh, _⟩ :=
    findSplit_sound tm shape tmS content p w tok tl suf h
  have hno := findSplit_no_occ tm shape tmS tmC content p w tok tl suf h
  have hassoc : w ++ tok ++ tl = w ++ (tok ++ tl) := by simp [List.append_assoc]
  have hpne : (w ++ tok ++ tl : List Char) ≠ [] := by
    rw [hassoc]
    simp [hw]
  have hcontent : content = p ++ ((w ++ tok ++ tl) ++ suf) := by
    rw [hdec]
    simp [List.append_assoc]
  have hno2 : ∀ j, j < p.length →
      (w ++ tok ++ tl).isPrefixOf ((p ++ ((w ++ tok ++ tl) ++ suf)).drop j) = false := by
    intro j hj
    rw [← hcontent, hassoc]
    exact hno j hj
  have happ := replaceFirst_split (w ++ tok ++ tl) (w ++ r ++ tl) hpne p suf ?_
  · constructor
    · rw [hcontent, happ]
      simp [List.append_assoc]
    · exact ⟨hdec, hshne tl hsh⟩
  · intro j hj
    have e : p ++ ((w ++ tok ++ tl) ++ suf) = p ++ ((w ++ tok ++ tl) ++ suf) := rfl
    exact hno2 j hj

theorem tail1Shape_ne_nil : ∀ tl, tail1Shape tl → tl ≠ [] := by
  rintro tl ⟨w1, w2, htl, _, _⟩
  rw [htl]
  simp

theorem tail2Shape_ne_nil : ∀ tl, tail2Shape tl → tl ≠ [] := by
  rintro tl ⟨c, htl, _⟩
  rw [htl]
  simp

theorem incrementSOASerial_found (today content p w tok tl suf : List Char)
    (h : findSerialSplit content = some (p, w, tok, tl, suf)) :
    incrementSOASerial today content =
      p ++ (w ++ ((if today.isPrefixOf tok then today ++ pad2 (goAtoi (tok.drop 8) + 1)
        else today ++ ("01").toList) ++ (tl ++ suf))) ∧
    content = p ++ (w ++ (tok ++ (tl ++ suf))) ∧ tl ≠ [] := by
  have hrepl : ∀ r : List Char,
      replaceFirst content (w ++ tok ++ tl) (w ++ r ++ tl) =
        p ++ (w ++ (r ++ (tl ++ suf))) ∧
      content = p ++ (w ++ (tok ++ (tl ++ suf))) ∧ tl ≠ [] := by
    intro r
    unfold findSerialSplit at h
    cases h1 : findSplit tailMatch1 content with
    | some x =>
      rw [h1] at h
      injection h with h
      subst h
      exact findSplit_replaceFirst tailMatch1 tail1Shape tailMatch1_sound
        (fun tl2 rest2 hsh2 => tailMatch1_complete tl2 hsh2 rest2) tail1Shape_ne_nil
        content p w tok tl suf r h1
    | none =>
      rw [h1] at h
      dsimp only at h
      exact findSplit_replaceFirst tailMatch2 tail2Shape tailMatch2_sound
        (fun tl2 rest2 hsh2 => tailMatch2_complete tl2 hsh2 rest2) tail2Shape_ne_nil
        content p w tok tl suf r h
  unfold incrementSOASerial
  rw [h]
  dsimp only
  exact ⟨(hrepl _).1, (hrepl []).2.1, (hrepl []).2.2⟩

theorem getLast?_append_right (a b : List Char) (hb : b ≠ []) :
    (a ++ b).getLast? = b.getLast? := by
  induction a with
  | nil => rfl
  | cons x a' ih =>
    rw [List.cons_append]
    cases hab : a' ++ b with
    | nil =>
      exact absurd (List.append_eq_nil.mp hab).2 hb
    | cons y t =>
      rw [hab] at ih
      rw [List.getLast?_cons_cons]
      exact ih

theorem incrementSOASerial_getLast (today content : List Char) :
    (incrementSOASerial today content).getLast? = content.getLast? := by
  cases h : findSerialSplit content with
  | none =>
    unfold incrementSOASerial
    rw [h]
  | some x =>
    obtain ⟨p, w, tok, tl, suf⟩ := x
    obtain ⟨heq, hdec, htl⟩ := incrementSOASerial_found today content p w tok tl suf h
    rw [heq]
    conv_rhs => rw [hdec]
    have htlsuf : (tl ++ suf : List Char) ≠ [] :=
      fun hcon => htl (List.append_eq_nil.mp hcon).1
    have hne1 : ∀ z : List Char, (z ++ (tl ++ suf) : List Char) ≠ [] :=
      fun z hcon => htlsuf (List.append_eq_nil.mp hcon).2
    rw [getLast?_append_right p _ (fun hcon => hne1 _ (List.append_eq_nil.mp hcon).2),
      getLast?_append_right w _ (hne1 _),
      getLast?_append_right _ _ htlsuf,
      getLast?_append_right p _ (fun hcon => hne1 _ (List.append_eq_nil.mp hcon).2),
      getLast?_append_right w _ (hne1 _),
      getLast?_append_right _ _ htlsuf]

-- C3 / C9: the serial bump theorems -----------------------------------------

/-- A minimal zone content whose serial is 2024010100, and the results of
bumping it twice on 2024-01-01. -/
def c3zone : List Char :=
  ("@ IN SOA ns1 admin (\n 2024010100 ; serial\n 3600 ; refresh\n)\n").toList

def c3zone1 : List Char :=
  ("@ IN SOA ns1 admin (\n 2024010101 ; serial\n 3600 ; refresh\n)\n").toList

def c3zone2 : List Char :=
  ("@ IN SOA ns1 admin (\n 2024010102 ; serial\n 3600 ; refresh\n)\n").toList

/-- C3: when the matched ten-digit serial token is today followed by a
sequence NN, the bump rewrites exactly that token to today followed by
NN+1 zero-padded to two digits; when the matched token does not start with
today, the new serial is today plus zero-one regardless of the prior value;
and concretely, on 2024-01-01 two bumps starting from 2024010100 yield
2024010101 then 2024010102. -/
theorem C3_incrementSerial_spec :
    (∀ today content p w tok tl suf nn,
      findSerialSplit content = some (p, w, tok, tl, suf) →
      tok = today ++ nn → today.length = 8 →
      incrementSOASerial today content =
        p ++ (w ++ ((today ++ pad2 (goAtoi nn + 1)) ++ (tl ++ suf))))
    ∧ (∀ today content p w tok tl suf,
      findSerialSplit content = some (p, w, tok, tl, suf) →
      today.isPrefixOf tok = false →
      incrementSOASerial today content =
        p ++ (w ++ ((today ++ ("01").toList) ++ (tl ++ suf))))
    ∧ (incrementSOASerial (("20240101").toList) c3zone = c3zone1
       ∧ incrementSOASerial (("20240101").toList) c3zone1 = c3zone2) := by
  refine ⟨?_, ?_, by decide, by decide⟩
  · intro today content p w tok tl suf nn h htok hlen
    obtain ⟨heq, _, _⟩ := incrementSOASerial_found today content p w tok tl suf h
    rw [heq, htok]
    rw [isPrefixOf_append_self today nn]
    simp only [if_true]
    rw [show (8 : Nat) = today.length from hlen.symm, List.drop_left]
  · intro today content p w tok tl suf h hpre
    obtain ⟨heq, _, _⟩ := incrementSOASerial_found today content p w tok tl suf h
    rw [heq, hpre]
    simp only [Bool.false_eq_true, if_false]

theorem C3_incrementSerial_spec_witness :
    incrementSOASerial (("20240101").toList) c3zone =
      ("@ IN SOA ns1 admin (").toList ++ (("\n ").toList ++
        (((("20240101").toList ++ pad2 (goAtoi (("00").toList) + 1)) ++
          ((" ; serial").toList ++ ("\n 3600 ; refresh\n)\n").toList)))) :=
  C3_incrementSerial_spec.1 (("20240101").toList) c3zone
    (("@ IN SOA ns1 admin (").toList) (("\n ").toList) (("2024010100").toList)
    ((" ; serial").toList) (("\n 3600 ; refresh\n)\n").toList) (("00").toList)
    (by decide) (by decide) (by decide)

/-- A minimal zone content whose serial is 2024010199. -/
def c9zone : List Char :=
  ("@ IN SOA ns1 admin (\n 2024010199 ; serial\n)\n").toList

/-- C9: when the matched serial token is today followed by the sequence 99,
the bump increments the sequence to 100 and formats it with minimum width
two, so the new token is today followed by 100: an eleven-digit serial that
grows past ten digits instead of wrapping or saturating. -/
theorem C9_serial_overflow_spec :
    ∀ today content p w tl suf,
      findSerialSplit content = some (p, w, today ++ ("99").toList, tl, suf) →
      today.length = 8 →
      incrementSOASerial today content =
        p ++ (w ++ ((today ++ ("100").toList) ++ (tl ++ suf)))
      ∧ (today ++ ("100").toList).length = 11 := by
  intro today content p w tl suf h hlen
  obtain ⟨heq, _, _⟩ := incrementSOASerial_found today content p w _ tl suf h
  constructor
  · rw [heq]
    rw [isPrefixOf_append_self today (("99").toList)]
    simp only [if_true]
    rw [show (8 : Nat) = today.length from hlen.symm, List.drop_left]
    rw [show pad2 (goAtoi (("99").toList) + 1) = ("100").toList from by decide]
  · simp [hlen]

theorem C9_serial_overflow_spec_witness :
    incrementSOASerial (("20240101").toList) c9zone =
      ("@ IN SOA ns1 admin (").toList ++ (("\n ").toList ++
        (((("20240101").toList ++ ("100").toList) ++
          ((" ; serial").toList ++ ("\n)\n").toList)))) ∧
    ((("20240101").toList ++ ("100").toList)).length = 11 :=
  C9_serial_overflow_spec (("20240101").toList) c9zone
    (("@ IN SOA ns1 admin (").toList) (("\n ").toList)
    ((" ; serial").toList) (("\n)\n").toList) (by decide) (by decide)

-- C4: write normalization ----------------------------------------------------

theorem replaceCRLF_no_cr (s : List Char) (h : '\r' ∉ s) : replaceCRLF s = s := by
  induction s with
  | nil => rfl
  | cons c rest ih =>
    have hc : c ≠ '\r' := fun hcc => h (by simp [hcc])
    have hrest : '\r' ∉ rest := fun hm => h (by simp [hm])
    unfold replaceCRLF
    split
    next heq => simp at heq
    next r2 heq =>
      injection heq with h1 _
      exact absurd h1 hc
    next =>
      rename_i x c2 rest2 hne heq
      injection heq with h1 h2
      subst h1
      subst h2
      rw [ih hrest]

theorem containsSub_crlf_false (u : List Char) (h : '\r' ∉ u) :
    containsSub u ('\r' :: ['\n']) = false := by
  induction u with
  | nil => rfl
  | cons c rest ih =>
    have hc : c ≠ '\r' := fun hcc => h (by simp [hcc])
    have hrest : '\r' ∉ rest := fun hm => h (by simp [hm])
    unfold containsSub
    rw [ih hrest]
    have hpre : (('\r' :: ['\n']) : List Char).isPrefixOf (c :: rest) = false := by
      show (('\r' == c) && (['\n'].isPrefixOf rest)) = false
      have : ('\r' == c) = false := by
        simp only [beq_eq_false_iff_ne, ne_eq]
        exact fun hv => hc hv.symm
      rw [this]
      rfl
    rw [hpre]
    rfl

/-- C4 counterexample: the normalization pipeline can leave a CRLF in the
written text (an input ending in a bare CR gets an LF appended, creating a
CRLF), and it does not collapse multiple trailing LFs to exactly one. -/
theorem C4_counterexample :
    containsSub (hostsWriteContent ('a' :: ['\r'])) ('\r' :: ['\n']) = true ∧
    hostsWriteContent ('a' :: '\n' :: ['\n']) = 'a' :: '\n' :: ['\n'] :=
  ⟨by decide, by decide⟩

/-- C4 amended: every Write (zone, hosts, Corefile) persists the input with
CRLF pairs replaced by LF in one left-to-right pass and one LF appended if
the result does not already end in LF; zone Write additionally bumps the
SOA serial inside the normalized text. The written text always ends in LF,
and for inputs containing no CR it is exactly the input plus at most one
trailing LF and contains no CRLF; but a trailing bare CR yields CRLF in the
written text and pre-existing multiple trailing LFs are preserved. -/
theorem C4_write_normalization_amended (s today : List Char) :
    (normalizeContent s).getLast? = some '\n'
    ∧ (zoneWriteContent today s).getLast? = some '\n'
    ∧ hostsWriteContent s = normalizeContent s
    ∧ corefileWriteContent s = normalizeContent s
    ∧ zoneWriteContent today s = incrementSOASerial today (normalizeContent s)
    ∧ ('\r' ∉ s →
        normalizeContent s = s ++ (if s.getLast? = some '\n' then [] else ['\n'])
        ∧ containsSub (normalizeContent s) ('\r' :: ['\n']) = false) := by
  have hends : (normalizeContent s).getLast? = some '\n' := by
    unfold normalizeContent
    split_ifs with hl
    · exact hl
    · rw [List.getLast?_concat]
  refine ⟨hends, ?_, rfl, rfl, rfl, ?_⟩
  · unfold zoneWriteContent
    rw [incrementSOASerial_getLast]
    exact hends
  · intro h
    have hid : replaceCRLF s = s := replaceCRLF_no_cr s h
    constructor
    · unfold normalizeContent
      rw [hid]
      split_ifs with hl
      · simp
      · rfl
    · have hnm : '\r' ∉ normalizeContent s := by
        unfold normalizeContent
        rw [hid]
        split_ifs with hl
        · exact h
        · intro hmem
          rcases List.mem_append.mp hmem with hmem | hmem
          · exact h hmem
          · simp at hmem
      exact containsSub_crlf_false _ hnm

theorem C4_write_normalization_amended_witness :
    normalizeContent (("abc").toList) = ("abc\n").toList ∧
    containsSub (normalizeContent (("abc").toList)) ('\r' :: ['\n']) = false := by
  have h := (C4_write_normalization_amended (("abc").toList) (("20240101").toList)).2.2.2.2.2
    (by decide)
  refine ⟨?_, h.2⟩
  rw [h.1]
  decide

-- C6: ZoneManager.RemoveRecord ----------------------------------------------

/-- Number of backslashes immediately preceding the end of s. -/
def trailingBackslashes (s : List Char) : Nat :=
  ((s.reverse).takeWhile (fun c => c = '\\')).length

/-- dns.IsFqdn: the name ends in an unescaped dot (an even number of
backslashes before the final dot). -/
def goIsFqdn (s : List Char) : Bool :=
  match s.getLast? with
  | some '.' => decide (trailingBackslashes (s.dropLast) % 2 = 0)
  | _ => false

/-- dns.Fqdn: append a trailing dot unless the name is already fully
qualified. -/
def goFqdn (s : List Char) : List Char :=
  if goIsFqdn s then s else s ++ ['.']

/-- relativeName from zone.go: qualify both names, then map the origin
itself to the at sign, strip a dot-origin suffix, and otherwise return the
qualified name unchanged. -/
def relativeName (fqdn origin : List Char) : List Char :=
  if goFqdn fqdn = goFqdn origin then ("@").toList
  else if ('.' :: goFqdn origin).isSuffixOf (goFqdn fqdn) then
    (goFqdn fqdn).take ((goFqdn fqdn).length - ('.' :: goFqdn origin).length)
  else goFqdn fqdn

/-- The dynamic type of a parsed resource record (the Go switch is over the
concrete miekg record structs; SOA and any other type fall to the default
false branch). -/
inductive RRKind where
  | A
  | AAAA
  | CNAME
  | MX
  | TXT
  | NS
  | SOA
  | OTHER
deriving DecidableEq

/-- One resource record as delivered by the zone parser for a single line:
the header name (fully qualified) and the rendered value that the Go switch
compares (the A or AAAA address string, the CNAME or NS target, the MX
exchange, or the joined TXT strings). The miekg/dns grammar is external to
the repository, so the parser is a parameter everywhere below. -/
structure ParsedRR where
  name : List Char
  kind : RRKind
  value : List Char
deriving DecidableEq

/-- matchesRecord from zone.go: skip blank, comment and directive lines,
parse the trimmed line as a one-record zone fragment, compare the
origin-relative name, then compare type and value, FQDN-normalizing the
value for the name-valued types CNAME, MX and NS. -/
def matchesRecord (parse : List Char → Option ParsedRR)
    (line name rtype value origin : List Char) : Bool :=
  if trimLC line = [] then false
  else if (trimLC line).head? = some ';' then false
  else if (trimLC line).head? = some '$' then false
  else
    match parse (trimLC line ++ ['\n']) with
    | none => false
    | some rr =>
      if relativeName rr.name origin = name then
        match rr.kind with
        | RRKind.A => rtype == ("A").toList && rr.value == value
        | RRKind.AAAA => rtype == ("AAAA").toList && rr.value == value
        | RRKind.CNAME =>
          rtype == ("CNAME").toList && (rr.value == value || rr.value == goFqdn value)
        | RRKind.MX =>
          rtype == ("MX").toList && (rr.value == value || rr.value == goFqdn value)
        | RRKind.TXT => rtype == ("TXT").toList && rr.value == value
        | RRKind.NS =>
          rtype == ("NS").toList && (rr.value == value || rr.value == goFqdn value)
        | _ => false
      else false

/-- ZoneManager.RemoveRecord at the content level: drop the first matching
line, fail with a record-not-found error (none, nothing written) when no
line matches, and bump the serial in the joined remainder. -/
def zoneRemoveRecord (parse : List Char → Option ParsedRR)
    (today raw name rtype value origin : List Char) : Option (List Char) :=
  if (removeFirstLine (fun l => matchesRecord parse l name rtype value origin)
      (splitNL raw)).2 then
    some (incrementSOASerial today
      (joinNL (removeFirstLine (fun l => matchesRecord parse l name rtype value origin)
        (splitNL raw)).1))
  else none

/-- C6: RemoveRecord removes exactly the first line matching the requested
(name, type, value) in the matchesRecord sense, leaving every other line
intact (the written content is the join of the lines with that single index
erased, then serial-bumped); when no line matches it returns a not-found
error and nothing is written. -/
theorem C6_zone_removeRecord_spec (parse : List Char → Option ParsedRR)
    (today raw name rtype value origin : List Char) :
    (∀ i, findIdxL (fun l => matchesRecord parse l name rtype value origin)
        (splitNL raw) = some i →
      zoneRemoveRecord parse today raw name rtype value origin =
        some (incrementSOASerial today (joinNL ((splitNL raw).eraseIdx i))))
    ∧ (findIdxL (fun l => matchesRecord parse l name rtype value origin)
        (splitNL raw) = none →
      zoneRemoveRecord parse today raw name rtype value origin = none) := by
  constructor
  · intro i h
    unfold zoneRemoveRecord
    rw [removeFirstLine_of_found _ _ i h]
    rfl
  · intro h
    unfold zoneRemoveRecord
    rw [removeFirstLine_of_none _ _ (findIdxL_none_all_false _ _ h)]
    rfl

/-- A toy single-line parser for the C6 witness. -/
def c6parse : List Char → Option ParsedRR :=
  fun l =>
    if l = ("app IN A 1.2.3.4\n").toList then
      some ⟨("app.example.com.").toList, RRKind.A, ("1.2.3.4").toList⟩
    else none

def c6raw : List Char :=
  ("$ORIGIN example.com.\napp IN A 1.2.3.4\nwww IN A 1.2.3.5\n").toList

theorem C6_zone_removeRecord_spec_witness :
    zoneRemoveRecord c6parse (("20240101").toList) c6raw (("app").toList)
      (("A").toList) (("1.2.3.4").toList) (("example.com.").toList) =
      some (("$ORIGIN example.com.\nwww IN A 1.2.3.5\n").toList) ∧
    zoneRemoveRecord c6parse (("20240101").toList) c6raw (("app").toList)
      (("A").toList) (("9.9.9.9").toList) (("example.com.").toList) = none := by
  constructor
  · have h := (C6_zone_removeRecord_spec c6parse (("20240101").toList) c6raw
      (("app").toList) (("A").toList) (("1.2.3.4").toList) (("example.com.").toList)).1
      1 (by decide)
    rw [h]
    decide
  · exact (C6_zone_removeRecord_spec c6parse (("20240101").toList) c6raw
      (("app").toList) (("A").toList) (("9.9.9.9").toList) (("example.com.").toList)).2
      (by decide)

-- C8: GenerateDiff (diff.go over the gotextdiff library) ---------------------

/-- One step of an edit script over lines. -/
inductive DOp where
  | keep (l : List Char)
  | del (l : List Char)
  | ins (l : List Char)
deriving DecidableEq

/-- gotextdiff splitLines (strings.SplitAfter on newline): pieces keep their
trailing newline; the final piece is what follows the last newline (possibly
empty). -/
def splitAfterNL : List Char → List (List Char)
  | [] => [[]]
  | c :: rest =>
    if c = '\n' then [c] :: splitAfterNL rest
    else
      match splitAfterNL rest with
      | h :: t => (c :: h) :: t
      | [] => [[c]]

def joinAll : List (List Char) → List Char
  | [] => []
  | l :: rest => l ++ joinAll rest

/-- Number of non-keep steps of an edit script. -/
def opCost : List DOp → Nat
  | [] => 0
  | DOp.keep _ :: rest => opCost rest
  | _ :: rest => 1 + opCost rest

/-- Fuel-driven shortest edit script between two line lists, standing for
the Myers algorithm of myers.ComputeEdits: the same
shortest-edit-script specification, computed by direct minimization. The
fuel bound length a + length b always suffices. -/
def sesF : Nat → List (List Char) → List (List Char) → List DOp
  | 0, _, _ => []
  | _ + 1, [], [] => []
  | f + 1, [], y :: ys => DOp.ins y :: sesF f [] ys
  | f + 1, x :: xs, [] => DOp.del x :: sesF f xs []
  | f + 1, x :: xs, y :: ys =>
    if x = y then DOp.keep x :: sesF f xs ys
    else
      if opCost (DOp.del x :: sesF f xs (y :: ys)) ≤
          opCost (DOp.ins y :: sesF f (x :: xs) ys) then
        DOp.del x :: sesF f xs (y :: ys)
      else DOp.ins y :: sesF f (x :: xs) ys

def ses (a b : List (List Char)) : List DOp := sesF (a.length + b.length) a b

/-- Does the edit script contain an insertion or deletion (gotextdiff
produces a hunk exactly when there is one)? -/
def hasChange : List DOp → Bool
  | [] => false
  | DOp.keep _ :: rest => hasChange rest
  | _ :: _ => true

def renderOp : DOp → List Char
  | DOp.keep l => ' ' :: l
  | DOp.del l => '-' :: l
  | DOp.ins l => '+' :: l

def renderOps : List DOp → List Char
  | [] => []
  | op :: rest => renderOp op ++ renderOps rest

/-- The two unified-diff header lines written by gotextdiff String() before
the hunks: three minuses, the from-label, three pluses, the to-label. In
GenerateDiff the labels are a-slash-filename and b-slash-filename. -/
def diffHeader (label : List Char) : List Char :=
  ("--- a/").toList ++ label ++ '\n' :: (("+++ b/").toList ++ (label ++ ['\n']))

/-- The hunk body: a hunk range line and one rendered line per edit-script
step. The three-line-context hunk grouping of gotextdiff is abstracted to a
single whole-file hunk; the properties proved below (empty output exactly on
equal inputs, header shape otherwise) do not depend on the grouping. -/
def diffBody (a b : List (List Char)) : List Char :=
  ("@@ -1,").toList ++ natDigits a.length ++ (" +1,").toList ++ natDigits b.length ++
    (" @@\n").toList ++ renderOps (ses a b)

/-- GenerateDiff from diff.go: compute the line edit script, render the
unified diff, return the empty string when there are no hunks. -/
def GenerateDiff (label orig modif : List Char) : List Char :=
  if hasChange (ses (splitAfterNL orig) (splitAfterNL modif)) = false then []
  else diffHeader label ++ diffBody (splitAfterNL orig) (splitAfterNL modif)

theorem sesF_refl (a : List (List Char)) : ∀ f, a.length ≤ f → sesF f a a = a.map DOp.keep := by
  induction a with
  | nil =>
    intro f _
    cases f with
    | zero => rfl
    | succ f2 => rfl
  | cons x xs ih =>
    intro f hf
    cases f with
    | zero => simp at hf
    | succ f2 =>
      unfold sesF
      simp only [if_pos rfl]
      rw [ih f2 (by simpa using hf)]
      rfl

theorem hasChange_map_keep (a : List (List Char)) : hasChange (a.map DOp.keep) = false := by
  induction a with
  | nil => rfl
  | cons x xs ih =>
    unfold hasChange
    simpa using ih

theorem joinAll_splitAfterNL (s : List Char) : joinAll (splitAfterNL s) = s := by
  induction s with
  | nil => rfl
  | cons c rest ih =>
    unfold splitAfterNL
    split_ifs with hc
    · show joinAll ([c] :: splitAfterNL rest) = c :: rest
      unfold joinAll
      rw [ih]
      rfl
    · cases h : splitAfterNL rest with
      | nil =>
        exfalso
        have := ih
        rw [h] at this
        simp [joinAll] at this
        subst this
        simp [splitAfterNL] at h
      | cons h2 t2 =>
        show joinAll ((c :: h2) :: t2) = c :: rest
        unfold joinAll
        have : joinAll (h2 :: t2) = rest := by rw [← h, ih]
        rw [show joinAll (h2 :: t2) = h2 ++ joinAll t2 from rfl] at this
        rw [List.cons_append, this]

theorem sesF_no_change_eq (f : Nat) :
    ∀ a b : List (List Char), a.length + b.length ≤ f →
      hasChange (sesF f a b) = false → a = b := by
  induction f with
  | zero =>
    intro a b hf _
    cases a with
    | nil =>
      cases b with
      | nil => rfl
      | cons y ys => simp at hf
    | cons x xs => simp at hf
  | succ f2 ih =>
    intro a b hf hch
    cases a with
    | nil =>
      cases b with
      | nil => rfl
      | cons y ys =>
        rw [show sesF (f2 + 1) [] (y :: ys) = DOp.ins y :: sesF f2 [] ys from rfl] at hch
        exact absurd hch (by simp [hasChange])
    | cons x xs =>
      cases b with
      | nil =>
        rw [show sesF (f2 + 1) (x :: xs) [] = DOp.del x :: sesF f2 xs [] from rfl] at hch
        exact absurd hch (by simp [hasChange])
      | cons y ys =>
        unfold sesF at hch
        split_ifs at hch with hxy hcost
        · rw [show hasChange (DOp.keep x :: sesF f2 xs ys) = hasChange (sesF f2 xs ys)
            from rfl] at hch
          rw [hxy, ih xs ys (by simp at hf; omega) hch]
        · exact absurd hch (by simp [hasChange])
        · exact absurd hch (by simp [hasChange])

/-- C8: the diff of a text with itself is empty for every label, and when
the two texts differ the output starts with the unified-diff header lines
naming a-slash-label and b-slash-label. -/
theorem C8_generateDiff_spec :
    (∀ label X, GenerateDiff label X X = [])
    ∧ (∀ label X Y, X ≠ Y →
        (diffHeader label).isPrefixOf (GenerateDiff label X Y) = true) := by
  constructor
  · intro label X
    unfold GenerateDiff
    rw [show ses (splitAfterNL X) (splitAfterNL X) =
        (splitAfterNL X).map DOp.keep from sesF_refl _ _ (by omega)]
    rw [hasChange_map_keep]
    simp
  · intro label X Y hne
    have hsne : splitAfterNL X ≠ splitAfterNL Y := by
      intro hcon
      apply hne
      rw [← joinAll_splitAfterNL X, ← joinAll_splitAfterNL Y, hcon]
    have hch : hasChange (ses (splitAfterNL X) (splitAfterNL Y)) = true := by
      by_contra hcon
      have hcon2 : hasChange (ses (splitAfterNL X) (splitAfterNL Y)) = false := by
        simpa using hcon
      exact hsne (sesF_no_change_eq _ _ _ (by omega) hcon2)
    unfold GenerateDiff
    rw [hch]
    simp only [Bool.true_eq_false, if_false]
    exact isPrefixOf_append_self _ _

theorem C8_generateDiff_spec_witness :
    (diffHeader (("db.example.com").toList)).isPrefixOf
      (GenerateDiff (("db.example.com").toList) (("a\n").toList) (("b\n").toList)) = true :=
  C8_generateDiff_spec.2 (("db.example.com").toList) (("a\n").toList) (("b\n").toList)
    (by decide)
